import Mathlib

/-!
Shallow embedding of the consensus-ADMM engine in `cvxconsensus/consensus.py`:
the stopping evaluator `res_stop`, the aggregator `x_average`, and the
spectral step-size machinery `step_ls` / `step_cor` / `step_safe` /
`step_spec`, together with the per-variable round update of `run_worker`.

Floating-point scalars are modelled as exact numbers (`ℚ` where no square
root occurs, `ℝ` for the spectral step-size chain, which uses `np.sqrt`).
`np.finfo(float).eps` is the constant `2 ^ (-52)`.
-/

namespace CvxConsensus

/-- Machine precision `np.finfo(float).eps = 2^-52`, as a rational. -/
def epsFlQ : ℚ := 1 / 2 ^ 52

/-! ## Stopping evaluator (`res_stop`) -/

/-- One worker's residual report: the entries of the `ssq` dictionary sent
back by `run_worker` (sums of squared norms). -/
structure ResRecord where
  primal : ℚ
  dual : ℚ
  x : ℚ
  xbar : ℚ
  y : ℚ
deriving DecidableEq, Repr

/-- Function `res_stop(res_ssq, eps)`: sums each field over the reports and tests
`primal <= eps*max(x_ssq, xbar_ssq) + eps_fl` and `dual <= eps*u_ssq + eps_fl`.
Returns `(primal, dual, stopped)`. -/
def res_stop (res_ssq : List ResRecord) (eps : ℚ) : ℚ × ℚ × Bool :=
  let primal := (res_ssq.map (fun r => r.primal)).sum
  let dual := (res_ssq.map (fun r => r.dual)).sum
  let x_ssq := (res_ssq.map (fun r => r.x)).sum
  let xbar_ssq := (res_ssq.map (fun r => r.xbar)).sum
  let u_ssq := (res_ssq.map (fun r => r.y)).sum
  let stopped := decide (primal ≤ eps * max x_ssq xbar_ssq + epsFlQ ∧
                         dual ≤ eps * u_ssq + epsFlQ)
  (primal, dual, stopped)

/-! ## Aggregator (`x_average`) -/

/-- Solver status tags; `INF_OR_UNB` in `cvxpy.settings` covers the four
infeasible/unbounded variants. -/
inductive Status where
  | optimal
  | optimal_inaccurate
  | infeasible
  | infeasible_inaccurate
  | unbounded
  | unbounded_inaccurate
  | solver_error
deriving DecidableEq, Repr

/-- Membership test `status in s.INF_OR_UNB`. -/
def infOrUnb : Status → Bool
  | Status.infeasible => true
  | Status.infeasible_inaccurate => true
  | Status.unbounded => true
  | Status.unbounded_inaccurate => true
  | _ => false

/-- Variable values are numpy arrays; modelled as index-to-scalar maps so
elementwise arithmetic is pointwise. -/
abbrev Vec := ℕ → ℚ

/-- One worker's message `(status, rho_dict, x_dict)`: the two dictionaries
share the key list `keys`. -/
structure ProxResult where
  status : Status
  keys : List ℕ
  rho : ℕ → ℚ
  x : ℕ → Vec

/-- Processing of one report inside the `x_average` loop: for each key of the
report, append `rho[key]*value` to `xmerge[key]` and add `rho[key]` to
`rho_sum[key]`. -/
def mergeStep (acc : (ℕ → List Vec) × (ℕ → ℚ)) (r : ProxResult) :
    (ℕ → List Vec) × (ℕ → ℚ) :=
  r.keys.foldl
    (fun a key =>
      (Function.update a.1 key (a.1 key ++ [fun t => r.rho key * r.x key t]),
       Function.update a.2 key (a.2 key + r.rho key)))
    acc

/-- The dictionary built by `x_average`'s final comprehension: for every
merged key, the sum of the collected `rho*x` vectors divided elementwise by
the accumulated `rho` sum. -/
def avgPayload (prox_res : List ProxResult) : ℕ → Option Vec :=
  let acc := prox_res.foldl mergeStep (fun _ => [], fun _ => 0)
  fun key =>
    if (acc.1 key).isEmpty then none
    else some fun t => (acc.1 key).sum t / acc.2 key

/-- Function `x_average(prox_res)`: raises when any status is infeasible/unbounded,
otherwise merges all reports and returns the weighted-average dictionary. -/
def x_average (prox_res : List ProxResult) : Except String (ℕ → Option Vec) :=
  if prox_res.any (fun r => infOrUnb r.status) then
    Except.error "Proximal problem is infeasible or unbounded"
  else Except.ok (avgPayload prox_res)

/-! ## Spectral step size (`step_ls`, `step_cor`, `step_safe`, `step_spec`)

These functions use `np.sqrt` / `np.linalg.norm`, so they are modelled over
`ℝ`. Numpy arrays become lists of reals with elementwise arithmetic. -/

/-- A numpy array of floats. -/
abbrev RVec := List ℝ

/-- Elementwise product `p*d`. -/
def vmul (p d : RVec) : RVec := List.zipWith (fun a b => a * b) p d

/-- Sum `np.sum(p*d)`. -/
def dot (p d : RVec) : ℝ := (vmul p d).sum

/-- Sum `np.sum(p**2)`. -/
def sumSq (p : RVec) : ℝ := dot p p

/-- Norm `np.linalg.norm(p)`. -/
noncomputable def vnorm (p : RVec) : ℝ := Real.sqrt (sumSq p)

/-- Elementwise sum. -/
def vadd (a b : RVec) : RVec := List.zipWith (fun x y => x + y) a b

/-- Elementwise difference. -/
def vsub (a b : RVec) : RVec := List.zipWith (fun x y => x - y) a b

/-- Elementwise negation. -/
def vneg (a : RVec) : RVec := a.map (fun x => -x)

/-- Scalar times array. -/
def vsmul (c : ℝ) (a : RVec) : RVec := a.map (fun x => c * x)

/-- Machine precision `np.finfo(float).eps = 2^-52`, as a real. -/
noncomputable def epsFl : ℝ := 1 / 2 ^ 52

/-- Function `step_ls(p, d)`: least squares estimator for the spectral step size. -/
noncomputable def step_ls (p d : RVec) : ℝ :=
  let sd := dot d d / dot p d
  let mg := dot p d / dot p p
  if 2 * mg > sd then mg else sd - mg / 2

/-- Function `step_cor(p, d)`: correlation coefficient of two arrays. -/
noncomputable def step_cor (p d : RVec) : ℝ :=
  dot p d / (vnorm p * vnorm d)

/-- Function `step_safe(rho, a, b, a_cor, b_cor, eps)`: safeguarding rule for the
spectral step size update. -/
noncomputable def step_safe (rho a b a_cor b_cor : ℝ) (eps : ℝ) : ℝ :=
  if a_cor > eps ∧ b_cor > eps then Real.sqrt (a * b)
  else if a_cor > eps ∧ b_cor ≤ eps then a
  else if a_cor ≤ eps ∧ b_cor > eps then b
  else rho

/-- Function `step_spec(rho, k, dx, dxbar, dy, dyhat, eps, C)`: generalized spectral
step size with safeguarding; falls back to `rho` when any delta has squared
norm at most machine precision. -/
noncomputable def step_spec (rho : ℝ) (k : ℕ) (dx dxbar dy dyhat : RVec)
    (eps C : ℝ) : ℝ :=
  if sumSq dx ≤ epsFl ∨ sumSq dxbar ≤ epsFl ∨
     sumSq dy ≤ epsFl ∨ sumSq dyhat ≤ epsFl then rho
  else
    let a_hat := step_ls dx dyhat
    let b_hat := step_ls dxbar dy
    let a_cor := step_cor dx dyhat
    let b_cor := step_cor dxbar dy
    let scale := 1 + C / ((k : ℝ) ^ 2)
    let rho_hat := step_safe rho a_hat b_hat a_cor b_cor eps
    max (min rho_hat (scale * rho)) (rho / scale)

/-! ## Per-variable round update of `run_worker` -/

/-- The per-variable adaptation baseline `v_old[key]` of `run_worker`. -/
structure VarVals where
  x : RVec
  xbar : RVec
  y : RVec
  yhat : RVec

/-- The per-variable state produced by one round of `run_worker`'s loop body:
the new `xbar` and `y` parameter values, the (possibly adapted) step size,
and the adaptation baseline. -/
structure VarUpdateResult where
  xbar : RVec
  y : RVec
  rho : ℝ
  base : VarVals

/-- The per-variable body of `run_worker`'s round (consensus.py lines
282-314): set `xbar` to the received consensus value, update
`y += rho*(x - xbar)`, and — when `spectral` is on and `i % Tf == 1` —
compute `yhat = y_old + rho*(x - xbar_old)`, take the four deltas against
the baseline `v_old` (the `xbar` delta is `-xbar_new + xbar_baseline`),
run `step_spec`, and snapshot the new baseline. Line 299 stores `yhat` as a
lazy cvxpy expression over the `rho` parameter: line 305 evaluates it before
the `rho` update (so `dyhat` uses the old `rho`), but line 314 re-evaluates
it after line 308 has written the new `rho`, so the baseline snapshot is
`y_old + rho_new*(x - xbar_old)`. -/
noncomputable def worker_var_update (spectral : Bool) (i Tf : ℕ) (eps C : ℝ)
    (x xbar y : RVec) (rho : ℝ) (xbars : RVec) (old : VarVals) :
    VarUpdateResult :=
  let xbar_old := xbar
  let y_old := y
  let xbar_new := xbars
  let y_new := vadd y (vsmul rho (vsub x xbar_new))
  if spectral = true ∧ i % Tf = 1 then
    let yhat := vadd y_old (vsmul rho (vsub x xbar_old))
    let dx := vsub x old.x
    let dxbar := vadd (vneg xbar_new) old.xbar
    let dy := vsub y_new old.y
    let dyhat := vsub yhat old.yhat
    let rho_new := step_spec rho i dx dxbar dy dyhat eps C
    let yhat_snap := vadd y_old (vsmul rho_new (vsub x xbar_old))
    ⟨xbar_new, y_new, rho_new, ⟨x, xbar_new, y_new, yhat_snap⟩⟩
  else
    ⟨xbar_new, y_new, rho, old⟩

/-! ## Concrete sample inputs (used by the closed instances below) -/

/-- A one-report residual list. -/
def sampleRes : List ResRecord := [⟨0, 0, 1, 2, 3⟩]

/-- A one-report message list with an optimal status. -/
def sampleProx : List ProxResult :=
  [⟨Status.optimal, [0], fun _ => 1, fun _ => fun _ => 7⟩]

/-- A two-report message list sharing variable 0, equal step sizes. -/
def sampleProxB : List ProxResult :=
  [⟨Status.optimal, [0], fun _ => 1, fun _ => fun _ => 3⟩,
   ⟨Status.optimal, [0], fun _ => 1, fun _ => fun _ => 5⟩]

/-- Auxiliary square-root evaluation. -/
theorem sqrt16 : Real.sqrt 16 = 4 := by
  rw [show (16:ℝ) = 4 ^ 2 by norm_num]
  exact Real.sqrt_sq (by norm_num)

/-- Auxiliary square-root evaluation. -/
theorem sqrt4 : Real.sqrt 4 = 2 := by
  rw [show (4:ℝ) = 2 ^ 2 by norm_num]
  exact Real.sqrt_sq (by norm_num)

/-- Evaluation of `step_spec` on the deltas the code computes in the
concrete adaptation round used below: both correlations are positive, so the
geometric mean `sqrt(4*1) = 2` is selected. -/
theorem step_spec_eval_two : step_spec 1 1 [(1:ℝ)] [1] [1] [4] (1/5) (10^10) = 2 := by
  have hg : ¬ (sumSq [(1:ℝ)] ≤ epsFl ∨ sumSq [(1:ℝ)] ≤ epsFl ∨
      sumSq [(1:ℝ)] ≤ epsFl ∨ sumSq [(4:ℝ)] ≤ epsFl) := by
    push_neg
    refine ⟨?_, ?_, ?_, ?_⟩ <;> norm_num [sumSq, dot, vmul, epsFl]
  simp only [step_spec, step_ls, step_cor, step_safe, sumSq, dot, vmul, vnorm]
  rw [if_neg ?hng]
  case hng => simpa [sumSq, dot, vmul] using hg
  norm_num [sqrt16, sqrt4, Real.sqrt_one]

/-- Evaluation of `step_spec` on the sign-flipped `dxbar` delta: the second
correlation becomes negative, so the safeguard picks `a = 4` instead. -/
theorem step_spec_eval_four : step_spec 1 1 [(1:ℝ)] [-1] [1] [4] (1/5) (10^10) = 4 := by
  have hg : ¬ (sumSq [(1:ℝ)] ≤ epsFl ∨ sumSq [(-1:ℝ)] ≤ epsFl ∨
      sumSq [(1:ℝ)] ≤ epsFl ∨ sumSq [(4:ℝ)] ≤ epsFl) := by
    push_neg
    refine ⟨?_, ?_, ?_, ?_⟩ <;> norm_num [sumSq, dot, vmul, epsFl]
  simp only [step_spec, step_ls, step_cor, step_safe, sumSq, dot, vmul, vnorm]
  rw [if_neg ?hng]
  case hng => simpa [sumSq, dot, vmul] using hg
  norm_num [sqrt16, sqrt4, Real.sqrt_one]

/-- C8 counterexample: in an adaptation round (`i = 1`, `Tf = 2`), the step
size stored by the worker differs from the value `step_spec` yields on the
deltas "current value minus baseline snapshot" for all four vectors: the
code negates the `xbar` delta (`dxbar = -xbar_new + xbar_baseline`). -/
theorem worker_var_update_delta_counterexample :
    (worker_var_update true 1 2 (1/5) (10^10) [5] [1] [0] 1 [-1]
        ⟨[4], [0], [5], [0]⟩).rho ≠
      step_spec 1 1 (vsub [5] [4]) (vsub [-1] [0])
        (vsub (vadd [0] (vsmul 1 (vsub [5] [-1]))) [5])
        (vsub (vadd [0] (vsmul 1 (vsub [5] [1]))) [0]) (1/5) (10^10) := by
  have hL : (worker_var_update true 1 2 (1/5) (10^10) [5] [1] [0] 1 [-1]
      ⟨[4], [0], [5], [0]⟩).rho = step_spec 1 1 [(1:ℝ)] [1] [1] [4] (1/5) (10^10) := by
    simp only [worker_var_update]
    norm_num [vadd, vsub, vneg, vsmul]
  have hR : step_spec 1 1 (vsub [5] [4]) (vsub [-1] [0])
      (vsub (vadd [0] (vsmul 1 (vsub [5] [-1]))) [5])
      (vsub (vadd [0] (vsmul 1 (vsub [5] [1]))) [0]) (1/5) (10^10) =
      step_spec 1 1 [(1:ℝ)] [-1] [1] [4] (1/5) (10^10) := by
    norm_num [vadd, vsub, vsmul]
  rw [hL, hR, step_spec_eval_two, step_spec_eval_four]
  norm_num

/-- Adding a negated array is elementwise subtraction in reverse order. -/
theorem vadd_vneg_eq_vsub (a b : RVec) : vadd (vneg a) b = vsub b a := by
  induction a generalizing b with
  | nil => cases b <;> rfl
  | cons ha ta ih =>
    cases b with
    | nil => rfl
    | cons hb tb =>
      have htail := ih tb
      simp only [vadd, vneg, vsub, List.map_cons, List.zipWith_cons_cons] at htail ⊢
      rw [htail, neg_add_eq_sub]

/-- C8 (amended): on an adaptation round (`i % Tf = 1`, spectral on), the
worker computes `yhat = y_old + rho*(x - xbar_old)` from the pre-update `y`,
`xbar` and `rho`, calls `step_spec` on the deltas of `x`, `y`, `yhat`
(current minus baseline) and the negated delta of `xbar` (baseline minus
current), stores the result as the new `rho`, and snapshots
`(x, xbar_new, y_new)` together with the lazily re-evaluated
`yhat = y_old + rho_new*(x - xbar_old)` — using the updated `rho` — as the
new baseline. -/
theorem worker_var_update_spectral (i Tf : ℕ) (eps C : ℝ) (x xbar y : RVec)
    (rho : ℝ) (xbars : RVec) (old : VarVals) (hi : i % Tf = 1) :
    worker_var_update true i Tf eps C x xbar y rho xbars old =
      ⟨xbars,
       vadd y (vsmul rho (vsub x xbars)),
       step_spec rho i (vsub x old.x) (vsub old.xbar xbars)
         (vsub (vadd y (vsmul rho (vsub x xbars))) old.y)
         (vsub (vadd y (vsmul rho (vsub x xbar))) old.yhat) eps C,
       ⟨x, xbars, vadd y (vsmul rho (vsub x xbars)),
        vadd y (vsmul
          (step_spec rho i (vsub x old.x) (vsub old.xbar xbars)
            (vsub (vadd y (vsmul rho (vsub x xbars))) old.y)
            (vsub (vadd y (vsmul rho (vsub x xbar))) old.yhat) eps C)
          (vsub x xbar))⟩⟩ := by
  simp [worker_var_update, hi, vadd_vneg_eq_vsub]

/-- C5: `step_safe` returns `sqrt(a*b)` when both correlations exceed `eps`,
`a` when only `a_cor` does, `b` when only `b_cor` does, and `rho` unchanged
when neither does. -/
theorem step_safe_cases (rho a b a_cor b_cor eps : ℝ) :
    (a_cor > eps → b_cor > eps →
      step_safe rho a b a_cor b_cor eps = Real.sqrt (a * b)) ∧
    (a_cor > eps → b_cor ≤ eps → step_safe rho a b a_cor b_cor eps = a) ∧
    (a_cor ≤ eps → b_cor > eps → step_safe rho a b a_cor b_cor eps = b) ∧
    (a_cor ≤ eps → b_cor ≤ eps → step_safe rho a b a_cor b_cor eps = rho) := by
  unfold step_safe
  refine ⟨fun h1 h2 => ?_, fun h1 h2 => ?_, fun h1 h2 => ?_, fun h1 h2 => ?_⟩
  · rw [if_pos ⟨h1, h2⟩]
  · rw [if_neg (fun hc => absurd hc.2 (not_lt.mpr h2)), if_pos ⟨h1, h2⟩]
  · rw [if_neg (fun hc => absurd hc.1 (not_lt.mpr h1)),
        if_neg (fun hc => absurd hc.1 (not_lt.mpr h1)), if_pos ⟨h1, h2⟩]
  · rw [if_neg (fun hc => absurd hc.2 (not_lt.mpr h2)),
        if_neg (fun hc => absurd hc.1 (not_lt.mpr h1)),
        if_neg (fun hc => absurd hc.2 (not_lt.mpr h2))]

/-- C6: for nonzero `sum(p*d)` and `sum(p^2)`, `step_ls` returns the minimum
gradient estimate `sum(p*d)/sum(p^2)` when twice that exceeds the steepest
descent estimate `sum(d^2)/sum(p*d)`, and `steepest - min_gradient/2`
otherwise. -/
theorem step_ls_cases (p d : RVec) (hpd : dot p d ≠ 0) (hpp : dot p p ≠ 0) :
    (2 * (dot p d / dot p p) > dot d d / dot p d →
      step_ls p d = dot p d / dot p p) ∧
    (¬ 2 * (dot p d / dot p p) > dot d d / dot p d →
      step_ls p d = dot d d / dot p d - (dot p d / dot p p) / 2) := by
  constructor <;> intro h <;> simp only [step_ls]
  · rw [if_pos h]
  · rw [if_neg h]

/-- C7: when any of the four delta vectors has squared norm at most machine
epsilon, `step_spec` returns the current `rho` unchanged — a total function,
no curvature estimate, no error. -/
theorem step_spec_small_norm (rho : ℝ) (k : ℕ) (dx dxbar dy dyhat : RVec)
    (eps C : ℝ)
    (h : sumSq dx ≤ epsFl ∨ sumSq dxbar ≤ epsFl ∨
         sumSq dy ≤ epsFl ∨ sumSq dyhat ≤ epsFl) :
    step_spec rho k dx dxbar dy dyhat eps C = rho := by
  simp only [step_spec]
  rw [if_pos h]

/-- C4: for `rho > 0`, `k >= 1` and nonnegative convergence constant `C`,
the value of `step_spec` lies in `[rho/(1 + C/k^2), rho*(1 + C/k^2)]`. -/
theorem step_spec_clamped (rho : ℝ) (k : ℕ) (dx dxbar dy dyhat : RVec)
    (eps C : ℝ) (hrho : 0 < rho) (hk : 1 ≤ k) (hC : 0 ≤ C) :
    rho / (1 + C / (k : ℝ) ^ 2) ≤ step_spec rho k dx dxbar dy dyhat eps C ∧
    step_spec rho k dx dxbar dy dyhat eps C ≤ rho * (1 + C / (k : ℝ) ^ 2) := by
  have hkr : (1 : ℝ) ≤ (k : ℝ) := by exact_mod_cast hk
  have hk2 : (0 : ℝ) < (k : ℝ) ^ 2 := by nlinarith
  have hscale1 : (1 : ℝ) ≤ 1 + C / (k : ℝ) ^ 2 := by
    have := div_nonneg hC hk2.le
    linarith
  simp only [step_spec]
  split_ifs with h
  · exact ⟨div_le_self hrho.le hscale1, le_mul_of_one_le_right hrho.le hscale1⟩
  · constructor
    · exact le_max_right _ _
    · refine max_le ((min_le_right _ _).trans (le_of_eq (mul_comm _ _))) ?_
      calc rho / (1 + C / (k : ℝ) ^ 2) ≤ rho := div_le_self hrho.le hscale1
        _ ≤ rho * (1 + C / (k : ℝ) ^ 2) := le_mul_of_one_le_right hrho.le hscale1

/-- Positivity of `step_spec` for positive `rho` and nonnegative `C`. -/
theorem step_spec_pos_aux (rho : ℝ) (k : ℕ) (dx dxbar dy dyhat : RVec)
    (eps C : ℝ) (hrho : 0 < rho) (hC : 0 ≤ C) :
    0 < step_spec rho k dx dxbar dy dyhat eps C := by
  have hscale0 : (0 : ℝ) < 1 + C / (k : ℝ) ^ 2 := by
    have := div_nonneg hC (sq_nonneg (k : ℝ))
    linarith
  simp only [step_spec]
  split_ifs with h
  · exact hrho
  · exact lt_of_lt_of_le (div_pos hrho hscale0) (le_max_right _ _)

/-- C9: with `rho > 0`, `k >= 1` and `C >= 0`, `step_spec` — the only
operation that rewrites `rho` after initialization (consensus.py line 308) —
returns a strictly positive value, and the worker's per-variable round
update preserves `rho > 0` whatever the round does. -/
theorem step_spec_rho_positive (rho : ℝ) (k : ℕ) (dx dxbar dy dyhat : RVec)
    (eps C : ℝ) (spectral : Bool) (i Tf : ℕ) (x xbar y xbars : RVec)
    (old : VarVals) (hrho : 0 < rho) (hk : 1 ≤ k) (hC : 0 ≤ C) :
    0 < step_spec rho k dx dxbar dy dyhat eps C ∧
    0 < (worker_var_update spectral i Tf eps C x xbar y rho xbars old).rho := by
  refine ⟨step_spec_pos_aux rho k dx dxbar dy dyhat eps C hrho hC, ?_⟩
  simp only [worker_var_update]
  split_ifs with h
  · exact step_spec_pos_aux rho i _ _ _ _ eps C hrho hC
  · exact hrho

/-- C10 (amended): the small-norm guard of `step_spec` makes the `sum(p^2)`
divisors of `step_ls` and the norm-product divisors of `step_cor` nonzero,
but not the `sum(p*d)` divisor of the steepest-descent estimate. -/
theorem step_spec_guard_divisors (dx dxbar dy dyhat : RVec)
    (h1 : ¬ sumSq dx ≤ epsFl) (h2 : ¬ sumSq dxbar ≤ epsFl)
    (h3 : ¬ sumSq dy ≤ epsFl) (h4 : ¬ sumSq dyhat ≤ epsFl) :
    dot dx dx ≠ 0 ∧ dot dxbar dxbar ≠ 0 ∧
    vnorm dx * vnorm dyhat ≠ 0 ∧ vnorm dxbar * vnorm dy ≠ 0 := by
  have heps : (0 : ℝ) < epsFl := by norm_num [epsFl]
  have p1 : 0 < sumSq dx := heps.trans (not_le.mp h1)
  have p2 : 0 < sumSq dxbar := heps.trans (not_le.mp h2)
  have p3 : 0 < sumSq dy := heps.trans (not_le.mp h3)
  have p4 : 0 < sumSq dyhat := heps.trans (not_le.mp h4)
  refine ⟨ne_of_gt p1, ne_of_gt p2, ?_, ?_⟩
  · exact mul_ne_zero (ne_of_gt (Real.sqrt_pos.mpr p1))
      (ne_of_gt (Real.sqrt_pos.mpr p4))
  · exact mul_ne_zero (ne_of_gt (Real.sqrt_pos.mpr p2))
      (ne_of_gt (Real.sqrt_pos.mpr p3))

/-- C10 counterexample: orthogonal deltas `dx = [1,0]`, `dyhat = [0,1]`
(with `dxbar = dy = [1]`) pass the small-norm guard, yet the steepest
descent divisor `sum(dx*dyhat)` is zero. -/
theorem step_spec_guard_counterexample :
    ¬ sumSq [(1:ℝ), 0] ≤ epsFl ∧ ¬ sumSq [(1:ℝ)] ≤ epsFl ∧
    ¬ sumSq [(1:ℝ)] ≤ epsFl ∧ ¬ sumSq [(0:ℝ), 1] ≤ epsFl ∧
    dot [(1:ℝ), 0] [0, 1] = 0 := by
  refine ⟨?_, ?_, ?_, ?_, ?_⟩ <;> norm_num [sumSq, dot, vmul, epsFl]

/-- C1: `res_stop` sums each report field and stops exactly when
`primal_total <= tol*max(x_ssq, xbar_ssq) + eps_machine` and
`dual_total <= tol*y_ssq + eps_machine`; with zero primal and dual totals it
always reports convergence (the fields are sums of squares, hence
nonnegative, and the tolerance is nonnegative). -/
theorem res_stop_spec (res : List ResRecord) (tol : ℚ) (htol : 0 ≤ tol)
    (hx : ∀ r ∈ res, 0 ≤ r.x) (hxbar : ∀ r ∈ res, 0 ≤ r.xbar)
    (hy : ∀ r ∈ res, 0 ≤ r.y) :
    (res_stop res tol).1 = (res.map (fun r => r.primal)).sum ∧
    (res_stop res tol).2.1 = (res.map (fun r => r.dual)).sum ∧
    ((res_stop res tol).2.2 = true ↔
      (res.map (fun r => r.primal)).sum ≤
        tol * max ((res.map (fun r => r.x)).sum) ((res.map (fun r => r.xbar)).sum)
          + epsFlQ ∧
      (res.map (fun r => r.dual)).sum ≤ tol * (res.map (fun r => r.y)).sum + epsFlQ) ∧
    ((res.map (fun r => r.primal)).sum = 0 → (res.map (fun r => r.dual)).sum = 0 →
      (res_stop res tol).2.2 = true) := by
  refine ⟨rfl, rfl, by simp [res_stop], ?_⟩
  intro hp hd
  have hxs : 0 ≤ (res.map (fun r => r.x)).sum := by
    refine List.sum_nonneg ?_
    intro a ha
    obtain ⟨r, hr, rfl⟩ := List.mem_map.mp ha
    exact hx r hr
  have hys : 0 ≤ (res.map (fun r => r.y)).sum := by
    refine List.sum_nonneg ?_
    intro a ha
    obtain ⟨r, hr, rfl⟩ := List.mem_map.mp ha
    exact hy r hr
  have hepsq : (0 : ℚ) < epsFlQ := by norm_num [epsFlQ]
  have h1 : 0 ≤ tol * max ((res.map (fun r => r.x)).sum) ((res.map (fun r => r.xbar)).sum) :=
    mul_nonneg htol (hxs.trans (le_max_left _ _))
  have h2 : 0 ≤ tol * (res.map (fun r => r.y)).sum := mul_nonneg htol hys
  simp only [res_stop, decide_eq_true_eq]
  rw [hp, hd]
  constructor <;> linarith

/-- One report's inner loop: the merge dictionaries gain exactly one entry
for each key of the report (keys of a python dict are distinct). -/
theorem foldl_update_apply (rho : ℕ → ℚ) (xf : ℕ → Vec) (ks : List ℕ)
    (hnd : ks.Nodup) (acc : (ℕ → List Vec) × (ℕ → ℚ)) (key : ℕ) :
    ((ks.foldl (fun a k =>
        (Function.update a.1 k (a.1 k ++ [fun t => rho k * xf k t]),
         Function.update a.2 k (a.2 k + rho k))) acc).1 key
      = acc.1 key ++ (if key ∈ ks then [fun t => rho key * xf key t] else [])) ∧
    ((ks.foldl (fun a k =>
        (Function.update a.1 k (a.1 k ++ [fun t => rho k * xf k t]),
         Function.update a.2 k (a.2 k + rho k))) acc).2 key
      = acc.2 key + (if key ∈ ks then rho key else 0)) := by
  induction ks generalizing acc with
  | nil => simp
  | cons k ks ih =>
    have hknotin : k ∉ ks := (List.nodup_cons.mp hnd).1
    have hnd' : ks.Nodup := (List.nodup_cons.mp hnd).2
    simp only [List.foldl_cons]
    obtain ⟨ih1, ih2⟩ := ih hnd'
      (Function.update acc.1 k (acc.1 k ++ [fun t => rho k * xf k t]),
       Function.update acc.2 k (acc.2 k + rho k))
    rw [ih1, ih2]
    by_cases hkey : key = k
    · subst hkey
      simp [Function.update_apply, hknotin]
    · simp [Function.update_apply, hkey]

/-- Closed form of the merge loop of `x_average`: for each key, `xmerge`
holds the `rho*x` vectors of exactly the reports containing that key, in
order, and `rho_sum` their accumulated step sizes. -/
theorem x_average_merge (res : List ProxResult) (hnd : ∀ r ∈ res, r.keys.Nodup)
    (key : ℕ) (acc : (ℕ → List Vec) × (ℕ → ℚ)) :
    ((res.foldl mergeStep acc).1 key = acc.1 key ++
      (res.filter (fun r => key ∈ r.keys)).map
        (fun r => (fun t => r.rho key * r.x key t))) ∧
    ((res.foldl mergeStep acc).2 key = acc.2 key +
      ((res.filter (fun r => key ∈ r.keys)).map (fun r => r.rho key)).sum) := by
  induction res generalizing acc with
  | nil => simp
  | cons r rs ih =>
    simp only [List.foldl_cons]
    have h12 : (mergeStep acc r).1 key
          = acc.1 key ++ (if key ∈ r.keys then [fun t => r.rho key * r.x key t] else []) ∧
        (mergeStep acc r).2 key
          = acc.2 key + (if key ∈ r.keys then r.rho key else 0) :=
      foldl_update_apply r.rho r.x r.keys (hnd r (by simp)) acc key
    obtain ⟨ih1, ih2⟩ := ih (fun a ha => hnd a (by simp [ha])) (mergeStep acc r)
    rw [ih1, ih2, h12.1, h12.2]
    by_cases hk : key ∈ r.keys
    · simp [List.filter_cons, hk, add_assoc]
    · simp [List.filter_cons, hk]

/-- Summing a constant over a list multiplies it by the length. -/
theorem list_sum_map_const {α : Type} (l : List α) (c : ℚ) :
    (l.map (fun _ => c)).sum = (l.length : ℚ) * c := by
  induction l with
  | nil => simp
  | cons h t ih =>
    simp only [List.map_cons, List.sum_cons, List.length_cons, ih]
    push_cast
    ring

/-- A sum of pointwise functions evaluates pointwise. -/
theorem list_sum_apply (l : List Vec) (t : ℕ) :
    l.sum t = (l.map (fun v => v t)).sum := by
  induction l with
  | nil => rfl
  | cons h tl ih => simp [ih]

/-- C3: `x_average` fails with the infeasible-or-unbounded error exactly
when some report's status is infeasible or unbounded, and otherwise returns
the consensus dictionary and raises nothing. -/
theorem x_average_error_iff (res : List ProxResult) :
    (x_average res = Except.error "Proximal problem is infeasible or unbounded" ↔
      ∃ r ∈ res, infOrUnb r.status = true) ∧
    ((∀ r ∈ res, infOrUnb r.status = false) →
      x_average res = Except.ok (avgPayload res)) := by
  by_cases hany : res.any (fun r => infOrUnb r.status) = true
  · obtain ⟨r, hr, ht⟩ := List.any_eq_true.mp hany
    refine ⟨⟨fun _ => ⟨r, hr, ht⟩, fun _ => ?_⟩, fun hall => absurd (hall r hr) ?_⟩
    · simp only [x_average, hany, if_pos]
    · simp [ht]
  · refine ⟨⟨fun he => ?_, fun hex => ?_⟩, fun _ => ?_⟩
    · rw [x_average, if_neg hany] at he
      exact Except.noConfusion he
    · obtain ⟨r, hr, ht⟩ := hex
      exact absurd (List.any_eq_true.mpr ⟨r, hr, ht⟩) hany
    · rw [x_average, if_neg hany]

/-- C2: with no infeasible/unbounded report, `x_average` succeeds and maps
each variable id appearing in some report to
`sum_i(rho_i * x_i) / sum_i(rho_i)` over exactly the workers reporting that
id; with equal step sizes `c > 0` the entry is the unweighted mean. -/
theorem x_average_weighted (res : List ProxResult)
    (hstat : ∀ r ∈ res, infOrUnb r.status = false)
    (hnd : ∀ r ∈ res, r.keys.Nodup) (key : ℕ)
    (hk : ∃ r ∈ res, key ∈ r.keys) :
    x_average res = Except.ok (avgPayload res) ∧
    avgPayload res key = some (fun t =>
      ((res.filter (fun r => key ∈ r.keys)).map
          (fun r => r.rho key * r.x key t)).sum /
      ((res.filter (fun r => key ∈ r.keys)).map (fun r => r.rho key)).sum) ∧
    (∀ c : ℚ, 0 < c → (∀ r ∈ res, key ∈ r.keys → r.rho key = c) →
      avgPayload res key = some (fun t =>
        ((res.filter (fun r => key ∈ r.keys)).map (fun r => r.x key t)).sum /
        ((res.filter (fun r => key ∈ r.keys)).length : ℚ))) := by
  have hany : ¬ res.any (fun r => infOrUnb r.status) = true := by
    intro hcontra
    obtain ⟨r, hr, ht⟩ := List.any_eq_true.mp hcontra
    exact absurd (hstat r hr) (by simp [ht])
  obtain ⟨hm1, hm2⟩ := x_average_merge res hnd key (fun _ => [], fun _ => 0)
  have hmem : ∃ r ∈ res.filter (fun r => key ∈ r.keys), True := by
    obtain ⟨r, hr, hkk⟩ := hk
    exact ⟨r, List.mem_filter.mpr ⟨hr, by simpa using hkk⟩, trivial⟩
  obtain ⟨r0, hr0, -⟩ := hmem
  have hne : (res.foldl mergeStep (fun _ => [], fun _ => 0)).1 key ≠ [] := by
    rw [hm1]
    simp only [List.nil_append]
    exact List.ne_nil_of_mem (List.mem_map.mpr ⟨r0, hr0, rfl⟩)
  have hval : (fun t => ((res.foldl mergeStep (fun _ => [], fun _ => 0)).1 key).sum t /
        (res.foldl mergeStep (fun _ => [], fun _ => 0)).2 key)
      = fun t => ((res.filter (fun r => key ∈ r.keys)).map
            (fun r => r.rho key * r.x key t)).sum /
          ((res.filter (fun r => key ∈ r.keys)).map (fun r => r.rho key)).sum := by
    funext t
    rw [hm1, hm2, list_sum_apply, List.nil_append, zero_add, List.map_map]
    rfl
  refine ⟨by rw [x_average, if_neg hany], ?_, ?_⟩
  · simp only [avgPayload, List.isEmpty_eq_true, hne, if_false]
    rw [hval]
  · intro c hc hall
    simp only [avgPayload, List.isEmpty_eq_true, hne, if_false]
    rw [hval]
    congr 1
    funext t
    have hnum : (res.filter (fun r => key ∈ r.keys)).map (fun r => r.rho key * r.x key t)
        = (res.filter (fun r => key ∈ r.keys)).map (fun r => c * r.x key t) := by
      refine List.map_congr_left ?_
      intro a ha
      obtain ⟨haa, hak⟩ := List.mem_filter.mp ha
      rw [hall a haa (by simpa using hak)]
    have hden : (res.filter (fun r => key ∈ r.keys)).map (fun r => r.rho key)
        = (res.filter (fun r => key ∈ r.keys)).map (fun _ => c) := by
      refine List.map_congr_left ?_
      intro a ha
      obtain ⟨haa, hak⟩ := List.mem_filter.mp ha
      rw [hall a haa (by simpa using hak)]
    rw [hnum, hden, List.sum_map_mul_left, list_sum_map_const,
        mul_comm ((res.filter (fun r => key ∈ r.keys)).length : ℚ) c,
        mul_div_mul_left _ _ (ne_of_gt hc)]

/-- Witness for C1 at a concrete report list. -/
theorem res_stop_spec_witness :
    (0 : ℚ) ≤ 1/10000 ∧ (res_stop sampleRes (1/10000)).2.2 = true := by
  refine ⟨by norm_num, ?_⟩
  exact (res_stop_spec sampleRes (1/10000) (by norm_num) (by decide) (by decide)
    (by decide)).2.2.2 (by simp [sampleRes]) (by simp [sampleRes])

/-- Witness for C2 at a concrete two-report list with equal step sizes. -/
theorem x_average_weighted_witness :
    x_average sampleProxB = Except.ok (avgPayload sampleProxB) ∧
    avgPayload sampleProxB 0 = some (fun t =>
      ((sampleProxB.filter (fun r => 0 ∈ r.keys)).map
          (fun r => r.rho 0 * r.x 0 t)).sum /
      ((sampleProxB.filter (fun r => 0 ∈ r.keys)).map (fun r => r.rho 0)).sum) ∧
    avgPayload sampleProxB 0 = some (fun t =>
      ((sampleProxB.filter (fun r => 0 ∈ r.keys)).map (fun r => r.x 0 t)).sum /
      ((sampleProxB.filter (fun r => 0 ∈ r.keys)).length : ℚ)) := by
  have h := x_average_weighted sampleProxB (by decide) (by decide) 0 (by decide)
  exact ⟨h.1, h.2.1, h.2.2 1 one_pos (by decide)⟩

/-- Witness for C3 at a concrete all-optimal report list. -/
theorem x_average_error_iff_witness :
    x_average sampleProx = Except.ok (avgPayload sampleProx) :=
  (x_average_error_iff sampleProx).2 (by decide)

/-- Witness for C4 at concrete inputs. -/
theorem step_spec_clamped_witness :
    (0:ℝ) < 1 ∧ (1:ℕ) ≤ 1 ∧ (0:ℝ) ≤ 10 ^ 10 ∧
    1 / (1 + 10 ^ 10 / ((1:ℕ):ℝ) ^ 2) ≤
      step_spec 1 1 [0] [0] [0] [0] (1/5) (10 ^ 10) ∧
    step_spec 1 1 [0] [0] [0] [0] (1/5) (10 ^ 10) ≤
      1 * (1 + 10 ^ 10 / ((1:ℕ):ℝ) ^ 2) := by
  refine ⟨by norm_num, le_refl 1, by norm_num, ?_, ?_⟩
  · exact (step_spec_clamped 1 1 [0] [0] [0] [0] (1/5) (10 ^ 10)
      (by norm_num) (le_refl 1) (by norm_num)).1
  · exact (step_spec_clamped 1 1 [0] [0] [0] [0] (1/5) (10 ^ 10)
      (by norm_num) (le_refl 1) (by norm_num)).2

/-- Witness for C5 at concrete inputs: both correlations exceed `eps`. -/
theorem step_safe_cases_witness :
    (1 : ℝ) > 1/5 ∧ step_safe 7 4 9 1 1 (1/5) = Real.sqrt (4 * 9) :=
  ⟨by norm_num, (step_safe_cases 7 4 9 1 1 (1/5)).1 (by norm_num) (by norm_num)⟩

/-- Witness for C6 at concrete inputs. -/
theorem step_ls_cases_witness :
    dot [(1:ℝ)] [1] ≠ 0 ∧
    2 * (dot [(1:ℝ)] [1] / dot [(1:ℝ)] [1]) > dot [(1:ℝ)] [1] / dot [(1:ℝ)] [1] ∧
    step_ls [(1:ℝ)] [1] = dot [(1:ℝ)] [1] / dot [(1:ℝ)] [1] := by
  have hdot : dot [(1:ℝ)] [1] = 1 := by norm_num [dot, vmul]
  refine ⟨by rw [hdot]; norm_num, by rw [hdot]; norm_num, ?_⟩
  exact (step_ls_cases [1] [1] (by rw [hdot]; norm_num)
    (by rw [hdot]; norm_num)).1 (by rw [hdot]; norm_num)

/-- Witness for C7: all-zero deltas trigger the silent fallback. -/
theorem step_spec_small_norm_witness :
    sumSq [(0:ℝ)] ≤ epsFl ∧ step_spec 3 5 [0] [0] [0] [0] (1/5) (10 ^ 10) = 3 := by
  have h0 : sumSq [(0:ℝ)] ≤ epsFl := by norm_num [sumSq, dot, vmul, epsFl]
  exact ⟨h0, step_spec_small_norm 3 5 [0] [0] [0] [0] (1/5) (10 ^ 10) (Or.inl h0)⟩

/-- Witness for C8 (amended) at concrete inputs. -/
theorem worker_var_update_spectral_witness :
    1 % 2 = 1 ∧
    worker_var_update true 1 2 (1/5) (10 ^ 10) [1] [2] [3] 2 [4] ⟨[5], [6], [7], [8]⟩ =
      ⟨[4], vadd [3] (vsmul 2 (vsub [1] [4])),
       step_spec 2 1 (vsub [1] [5]) (vsub [6] [4])
         (vsub (vadd [3] (vsmul 2 (vsub [1] [4]))) [7])
         (vsub (vadd [3] (vsmul 2 (vsub [1] [2]))) [8]) (1/5) (10 ^ 10),
       ⟨[1], [4], vadd [3] (vsmul 2 (vsub [1] [4])),
        vadd [3] (vsmul
          (step_spec 2 1 (vsub [1] [5]) (vsub [6] [4])
            (vsub (vadd [3] (vsmul 2 (vsub [1] [4]))) [7])
            (vsub (vadd [3] (vsmul 2 (vsub [1] [2]))) [8]) (1/5) (10 ^ 10))
          (vsub [1] [2]))⟩⟩ :=
  ⟨rfl, worker_var_update_spectral 1 2 (1/5) (10 ^ 10) [1] [2] [3] 2 [4]
    ⟨[5], [6], [7], [8]⟩ rfl⟩

/-- Witness for C9 at concrete inputs. -/
theorem step_spec_rho_positive_witness :
    (0:ℝ) < 2 ∧ (1:ℕ) ≤ 1 ∧ (0:ℝ) ≤ 10 ^ 10 ∧
    0 < step_spec 2 1 [0] [0] [0] [0] (1/5) (10 ^ 10) ∧
    0 < (worker_var_update true 1 2 (1/5) (10 ^ 10) [0] [0] [0] 2 [0]
          ⟨[0], [0], [0], [0]⟩).rho := by
  refine ⟨by norm_num, le_refl 1, by norm_num, ?_, ?_⟩
  · exact (step_spec_rho_positive 2 1 [0] [0] [0] [0] (1/5) (10 ^ 10) true 1 2
      [0] [0] [0] [0] ⟨[0], [0], [0], [0]⟩ (by norm_num) (le_refl 1) (by norm_num)).1
  · exact (step_spec_rho_positive 2 1 [0] [0] [0] [0] (1/5) (10 ^ 10) true 1 2
      [0] [0] [0] [0] ⟨[0], [0], [0], [0]⟩ (by norm_num) (le_refl 1) (by norm_num)).2

/-- Witness for C10 (amended) at concrete inputs. -/
theorem step_spec_guard_divisors_witness :
    ¬ sumSq [(1:ℝ)] ≤ epsFl ∧
    (dot [(1:ℝ)] [1] ≠ 0 ∧ dot [(1:ℝ)] [1] ≠ 0 ∧
     vnorm [(1:ℝ)] * vnorm [(1:ℝ)] ≠ 0 ∧ vnorm [(1:ℝ)] * vnorm [(1:ℝ)] ≠ 0) := by
  have h1 : ¬ sumSq [(1:ℝ)] ≤ epsFl := by norm_num [sumSq, dot, vmul, epsFl]
  exact ⟨h1, step_spec_guard_divisors [1] [1] [1] [1] h1 h1 h1 h1⟩

end CvxConsensus
